import Mathlib

/-!
Verification of the cuelist timeline library.

This file gives a shallow embedding of the library's data model and
operations (src/cuelist/tempo.py, clip.py, compose.py, serde.py,
runner.py) and proves properties about them.  Python floats are
modelled as exact rationals (ℚ); Python dicts are modelled as
insertion-ordered association lists; awaitable render results are
modelled by their resolved values.
-/

/-! ### Compose functions (src/cuelist/compose.py) -/

/-- Mirrors `compose_last`: `deltas[-1]`.  The Python expression raises on an
empty list; the total model returns `default` there, a case the composition
pipeline never produces (see the grouping non-emptiness theorem). -/
def compose_last {Δ : Type} [Inhabited Δ] (deltas : List Δ) : Δ :=
  deltas.getLastD default

/-- Mirrors `compose_first`: `deltas[0]`, total model returning `default` on
the empty list (never reached by the composition pipeline). -/
def compose_first {Δ : Type} [Inhabited Δ] (deltas : List Δ) : Δ :=
  deltas.headD default

/-- Mirrors `compose_sum`: `sum(deltas)`. -/
def compose_sum (deltas : List ℚ) : ℚ :=
  deltas.sum

/-- Mirrors `compose_mean`: `sum(deltas) / len(deltas)`.  Python raises
`ZeroDivisionError` on an empty list; in ℚ the model yields `0` there, a case
the composition pipeline never produces. -/
def compose_mean (deltas : List ℚ) : ℚ :=
  deltas.sum / deltas.length

/-! ### TempoMap (src/cuelist/tempo.py, lines 12-69) -/

/-- Mirrors the accumulation loop of `TempoMap.time` (tempo.py lines 30-46):
`pb`/`pm` are `prev_beat`/`prev_bpm`, the list argument is the remaining
`_changes[1:]`, and the returned value is the seconds accumulated from beat
`pb` onward (the caller starts with `prev_beat = 0`). -/
def timeFrom (pb pm : ℚ) : List (ℚ × ℚ) → ℚ → ℚ
  | [], beats => (beats - pb) * (60 / pm)
  | (cb, cm) :: rest, beats =>
    if beats ≤ cb then (beats - pb) * (60 / pm)
    else (cb - pb) * (60 / pm) + timeFrom cb cm rest beats

/-- Mirrors the accumulation loop of `TempoMap.beat` (tempo.py lines 48-69):
`pb`/`pm`/`elapsed` are `prev_beat`/`prev_bpm`/`elapsed_seconds` (the running
`total_beats` always equals `prev_beat` in the source loop). -/
def beatFrom (pb pm elapsed : ℚ) : List (ℚ × ℚ) → ℚ → ℚ
  | [], secs => pb + (secs - elapsed) * (pm / 60)
  | (cb, cm) :: rest, secs =>
    let segSecs := (cb - pb) * (60 / pm)
    if secs ≤ elapsed + segSecs then pb + (secs - elapsed) * (pm / 60)
    else beatFrom cb cm (elapsed + segSecs) rest secs

/-- Mirrors the `TempoMap` dataclass: the constructor-supplied `bpm` plus the
`_changes` breakpoint list. -/
structure TempoMap where
  bpm : ℚ
  changes : List (ℚ × ℚ)

/-- Mirrors `TempoMap(bpm)` followed by `__post_init__`, which sets
`_changes = [(0.0, bpm)]`. -/
def TempoMap.init (bpm : ℚ) : TempoMap :=
  ⟨bpm, [(0, bpm)]⟩

/-- Mirrors `TempoMap.set_tempo` (tempo.py lines 21-28).  Python sorts the
rebuilt list of pairs; beats are pairwise distinct after the filter, so
sorting pairs lexicographically coincides with sorting by beat, which is what
the model does. -/
def TempoMap.set_tempo (tm : TempoMap) (beat bpm : ℚ) : TempoMap :=
  if beat ≤ 0 then ⟨tm.bpm, tm.changes.set 0 (0, bpm)⟩
  else
    ⟨tm.bpm,
      List.insertionSort (fun a b : ℚ × ℚ => a.1 ≤ b.1)
        ((tm.changes.filter (fun e => e.1 ≠ beat)) ++ [(beat, bpm)])⟩

/-- Mirrors `TempoMap.time` (tempo.py lines 30-46).  The source reads
`_changes[0][1]` and iterates `_changes[1:]`; `_changes` is never empty, and
the model returns `0` in that unreachable case. -/
def TempoMap.time (tm : TempoMap) (beats : ℚ) : ℚ :=
  match tm.changes with
  | [] => 0
  | (_, b0) :: tail => timeFrom 0 b0 tail beats

/-- Mirrors `TempoMap.beat` (tempo.py lines 48-69), with the same reading of
`_changes` as `TempoMap.time`. -/
def TempoMap.beat (tm : TempoMap) (secs : ℚ) : ℚ :=
  match tm.changes with
  | [] => 0
  | (_, b0) :: tail => beatFrom 0 b0 0 tail secs

/-- Well-formedness of the tail of the breakpoint list: beats strictly
increase from the given lower bound and every bpm is positive. -/
def tailWF : ℚ → List (ℚ × ℚ) → Prop
  | _, [] => True
  | prev, (cb, cm) :: rest => prev < cb ∧ 0 < cm ∧ tailWF cb rest

/-- Well-formedness of a TempoMap: the breakpoint list starts with a beat-0
entry of positive bpm and its tail is strictly increasing with positive bpms.
Every map reachable through `init`/`set_tempo` with positive bpms satisfies
this. -/
def TempoMap.WF (tm : TempoMap) : Prop :=
  match tm.changes with
  | [] => False
  | (z, b0) :: tail => z = 0 ∧ 0 < b0 ∧ tailWF 0 tail

/-- TempoMaps built by `TempoMap.init` and mutated only through
`TempoMap.set_tempo`, with positive tempo values throughout. -/
inductive TempoMap.Reachable : TempoMap → Prop
  | init (bpm : ℚ) (h : 0 < bpm) : TempoMap.Reachable (TempoMap.init bpm)
  | step (tm : TempoMap) (beat bpm : ℚ) (h : 0 < bpm) :
      TempoMap.Reachable tm → TempoMap.Reachable (tm.set_tempo beat bpm)

/-! ### Clip protocol and event-list primitives (src/cuelist/clip.py) -/

/-- Mirrors the `Clip` protocol (clip.py lines 33-39): anything exposing a
`duration` (`None` = unbounded) and a `render(t, ctx)` returning a dict,
modelled as an insertion-ordered association list. -/
structure Clip (Ctx Target Δ : Type) where
  duration : Option ℚ
  render : ℚ → Ctx → List (Target × Δ)

/-- Mirrors `target_deltas.setdefault(target, []).append(delta)` inside
`BaseTimeline._compose_results` (clip.py lines 132-140): append `v` to the
group of key `k`, creating the group at the end when absent. -/
def addDelta {Target Δ : Type} [DecidableEq Target] :
    List (Target × List Δ) → Target → Δ → List (Target × List Δ)
  | [], k, v => [(k, [v])]
  | (k', vs) :: rest, k, v =>
    if k = k' then (k', vs ++ [v]) :: rest else (k', vs) :: addDelta rest k v

/-- Mirrors the grouping loop of `BaseTimeline._compose_results`: fold every
delta of every result dict into per-target groups, preserving first-seen key
order and per-key delta order. -/
def groupDeltas {Target Δ : Type} [DecidableEq Target]
    (results : List (List (Target × Δ))) : List (Target × List Δ) :=
  results.foldl (fun acc r => r.foldl (fun acc2 kv => addDelta acc2 kv.1 kv.2) acc) []

/-- Mirrors `BaseTimeline._compose_results` (clip.py lines 132-140): group the
deltas by target, then apply `compose_fn` per target. -/
def composeResults {Target Δ : Type} [DecidableEq Target]
    (compose_fn : List Δ → Δ) (results : List (List (Target × Δ))) :
    List (Target × Δ) :=
  (groupDeltas results).map (fun p => (p.1, compose_fn p.2))

/-- Mirrors `bisect.bisect_right(events, position, key=lambda e: e[0])`
(clip.py line 96) by its specification: on a list sorted by first component it
returns the number of entries whose key is at most `position`. -/
def bisectRight {γ : Type} : List (ℚ × γ) → ℚ → ℕ
  | [], _ => 0
  | e :: rest, t => if t < e.1 then 0 else 1 + bisectRight rest t

/-- Mirrors `bisect.insort(events, (position, clip), key=lambda e: e[0])`
(clip.py line 83): insert after all entries with key at most the new key. -/
def insortRight {γ : Type} : List (ℚ × γ) → ℚ × γ → List (ℚ × γ)
  | [], x => [x]
  | e :: rest, x => if x.1 < e.1 then x :: e :: rest else e :: insortRight rest x

/-- Mirrors CPython `list.remove(y)`: delete the first element equal to `y`,
or `none` when no element matches (Python raises `ValueError` and leaves the
list untouched). -/
def listRemove {α : Type} [DecidableEq α] : List α → α → Option (List α)
  | [], _ => none
  | x :: rest, y =>
    if x = y then some rest else (listRemove rest y).map (fun l => x :: l)

/-! ### Timeline (src/cuelist/clip.py, lines 70-167)

`Timeline` inherits `BaseTimeline`'s event storage and mutation methods and
adds `duration` and `render`.  The structure is parametric in the stored clip
type `γ`; rendering is defined for `γ = Clip Ctx Target Δ`, while the
mutation claims hold for any `γ` with decidable equality (Python compares
clip objects with `==`, which defaults to identity and is always decidable).
-/

/-- Mirrors the `Timeline` dataclass state: `compose_fn` and the event list of
`(position, clip)` pairs. -/
structure Timeline (Δ γ : Type) where
  compose_fn : List Δ → Δ
  events : List (ℚ × γ)

/-- Mirrors `BaseTimeline.add` (clip.py lines 82-84): sorted insertion via
`bisect.insort` keyed on position (the chainable `return self` is implicit in
the returned value). -/
def Timeline.add {Δ γ : Type} (tl : Timeline Δ γ) (position : ℚ) (clip : γ) :
    Timeline Δ γ :=
  ⟨tl.compose_fn, insortRight tl.events (position, clip)⟩

/-- Mirrors `BaseTimeline.remove` (clip.py lines 86-88) as a state
transformer: `self.events.remove((position, clip))` mutates only on success;
the returned flag records whether `ValueError` was raised. -/
def Timeline.removeMut {Δ γ : Type} [DecidableEq γ] (tl : Timeline Δ γ)
    (position : ℚ) (clip : γ) : Timeline Δ γ × Bool :=
  match listRemove tl.events (position, clip) with
  | some l => (⟨tl.compose_fn, l⟩, false)
  | none => (tl, true)

/-- Mirrors `BaseTimeline.clear` (clip.py lines 90-92). -/
def Timeline.clear {Δ γ : Type} (tl : Timeline Δ γ) : Timeline Δ γ :=
  ⟨tl.compose_fn, []⟩

/-- Timelines built empty (any `compose_fn`) and mutated only through
`add`, `remove` and `clear`, the lifecycle stated in the specification. -/
inductive Timeline.Reachable {Δ γ : Type} [DecidableEq γ] : Timeline Δ γ → Prop
  | init (cf : List Δ → Δ) : Timeline.Reachable ⟨cf, []⟩
  | add (tl : Timeline Δ γ) (p : ℚ) (c : γ) :
      Timeline.Reachable tl → Timeline.Reachable (tl.add p c)
  | remove (tl : Timeline Δ γ) (p : ℚ) (c : γ) :
      Timeline.Reachable tl → Timeline.Reachable (tl.removeMut p c).1
  | clear (tl : Timeline Δ γ) :
      Timeline.Reachable tl → Timeline.Reachable tl.clear

/-- Mirrors the `max_end` loop of `Timeline.duration` (clip.py lines 152-164):
`acc` is the running `max_end`, and a `None` child duration returns `None`
for the whole property. -/
def durLoop {Ctx Target Δ : Type} :
    List (ℚ × Clip Ctx Target Δ) → Option ℚ → Option ℚ
  | [], acc => acc
  | (start, c) :: rest, acc =>
    match c.duration with
    | none => none
    | some d =>
      let e := start + d
      durLoop rest (some (match acc with
        | none => e
        | some m => if e > m then e else m))

/-- Mirrors the `Timeline.duration` property (clip.py lines 152-164). -/
def Timeline.duration {Ctx Target Δ : Type}
    (tl : Timeline Δ (Clip Ctx Target Δ)) : Option ℚ :=
  match tl.events with
  | [] => some 0
  | _ => durLoop tl.events none

/-- Mirrors the active-set construction of `BaseTimeline._render_at`
(clip.py lines 96-107): take the `bisect_right` prefix, walk it from index
`right - 1` down to `0` collecting `(local_t, clip)` pairs that pass the
duration check, then reverse back into storage order. -/
def activeEvents {Ctx Target Δ : Type}
    (tl : Timeline Δ (Clip Ctx Target Δ)) (position : ℚ) :
    List (ℚ × Clip Ctx Target Δ) :=
  let right := bisectRight tl.events position
  (((tl.events.take right).reverse).filterMap (fun e =>
    let local_t := position - e.1
    if e.2.duration ≠ none ∧ local_t > e.2.duration.getD 0 then none
    else some (local_t, e.2))).reverse

/-- Mirrors `BaseTimeline._render_at` (clip.py lines 94-118).  The sync fast
path and the async fallback produce the same resolved values in the same
order (`_render_async` awaits the pending result first and then gathers the
remaining clips in order), so the model renders the active clips in storage
order and composes. -/
def Timeline.renderAt {Ctx Target Δ : Type} [DecidableEq Target]
    (tl : Timeline Δ (Clip Ctx Target Δ)) (position : ℚ) (ctx : Ctx) :
    List (Target × Δ) :=
  let active := activeEvents tl position
  if active.isEmpty then []
  else composeResults tl.compose_fn (active.map (fun a => a.2.render a.1 ctx))

/-- Mirrors `Timeline.render` (clip.py lines 166-167). -/
def Timeline.render {Ctx Target Δ : Type} [DecidableEq Target]
    (tl : Timeline Δ (Clip Ctx Target Δ)) (t : ℚ) (ctx : Ctx) :
    List (Target × Δ) :=
  tl.renderAt t ctx

/-! ### BPMTimeline (src/cuelist/tempo.py, lines 72-133)

In src the `BPMTimeline` dataclass does not inherit `BaseTimeline`: it keeps
its events in insertion order (`add` appends), scans them linearly, and its
`render` is an `async def` whose awaited value is modelled here.
-/

/-- Mirrors the `BPMTimeline` dataclass state (tempo.py lines 72-77). -/
structure BPMTimeline (Δ γ : Type) where
  compose_fn : List Δ → Δ
  events : List (ℚ × γ)
  tempo_map : TempoMap

/-- Mirrors `BPMTimeline.add` (tempo.py lines 79-81): a plain append, in
contrast with `Timeline`'s sorted insertion. -/
def BPMTimeline.add {Δ γ : Type} (tl : BPMTimeline Δ γ) (position : ℚ)
    (clip : γ) : BPMTimeline Δ γ :=
  ⟨tl.compose_fn, tl.events ++ [(position, clip)], tl.tempo_map⟩

/-- Mirrors `BPMTimeline.remove` (tempo.py lines 83-85) as a state
transformer, like `Timeline.removeMut`. -/
def BPMTimeline.removeMut {Δ γ : Type} [DecidableEq γ] (tl : BPMTimeline Δ γ)
    (position : ℚ) (clip : γ) : BPMTimeline Δ γ × Bool :=
  match listRemove tl.events (position, clip) with
  | some l => (⟨tl.compose_fn, l, tl.tempo_map⟩, false)
  | none => (tl, true)

/-- Mirrors the `max_end` loop of `BPMTimeline.duration` (tempo.py lines
97-110): end beats are converted to seconds through the tempo map before
taking the maximum. -/
def bpmDurLoop {Ctx Target Δ : Type} (tm : TempoMap) :
    List (ℚ × Clip Ctx Target Δ) → Option ℚ → Option ℚ
  | [], acc => acc
  | (start_beat, c) :: rest, acc =>
    match c.duration with
    | none => none
    | some d =>
      let end_time := tm.time (start_beat + d)
      bpmDurLoop tm rest (some (match acc with
        | none => end_time
        | some m => if end_time > m then end_time else m))

/-- Mirrors the `BPMTimeline.duration` property (tempo.py lines 97-110). -/
def BPMTimeline.duration {Ctx Target Δ : Type}
    (tl : BPMTimeline Δ (Clip Ctx Target Δ)) : Option ℚ :=
  match tl.events with
  | [] => some 0
  | _ => bpmDurLoop tl.tempo_map tl.events none

/-- Mirrors `BPMTimeline.render` (tempo.py lines 112-132): convert the
second-denominated query time to a beat, collect active events by a linear
scan in storage order, render and compose.  The `asyncio.gather` resolves the
children in list order, so the awaited value is the in-order composition
modelled here. -/
def BPMTimeline.render {Ctx Target Δ : Type} [DecidableEq Target]
    (tl : BPMTimeline Δ (Clip Ctx Target Δ)) (t : ℚ) (ctx : Ctx) :
    List (Target × Δ) :=
  let current_beat := tl.tempo_map.beat t
  let active := tl.events.filterMap (fun e =>
    let local_beat := current_beat - e.1
    if local_beat < 0 ∨ (e.2.duration ≠ none ∧ local_beat > e.2.duration.getD 0)
    then none else some (local_beat, e.2))
  if active.isEmpty then []
  else composeResults tl.compose_fn (active.map (fun a => a.2.render a.1 ctx))

/-- Modelled from the spec: `BPMTimeline._render_at`, the raw activation
entry point that `NestedBPMClip.render` invokes (clip.py line 209).  The
`BPMTimeline` in src/src/cuelist/tempo.py does not define `_render_at` (only
its caller `NestedBPMClip` and tests/test_scaled_clip.py refer to it); per
spec section 4.4 it is the timeline's activation logic applied to a query
value already denominated in beats, i.e. `BPMTimeline.render` without the
seconds-to-beat conversion. -/
def BPMTimeline.renderAt {Ctx Target Δ : Type} [DecidableEq Target]
    (tl : BPMTimeline Δ (Clip Ctx Target Δ)) (position : ℚ) (ctx : Ctx) :
    List (Target × Δ) :=
  let active := tl.events.filterMap (fun e =>
    let local_beat := position - e.1
    if local_beat < 0 ∨ (e.2.duration ≠ none ∧ local_beat > e.2.duration.getD 0)
    then none else some (local_beat, e.2))
  if active.isEmpty then []
  else composeResults tl.compose_fn (active.map (fun a => a.2.render a.1 ctx))

/-! ### NestedBPMClip and ScaledClip (src/cuelist/clip.py, lines 170-243) -/

/-- Mirrors the `NestedBPMClip` wrapper (clip.py lines 182-209) around an
inner `BPMTimeline`. -/
structure NestedBPMClip (Ctx Target Δ : Type) where
  inner : BPMTimeline Δ (Clip Ctx Target Δ)

/-- Mirrors the `max_end` loop of `NestedBPMClip.duration` (clip.py lines
194-206): the maximum end position in beats, without tempo conversion. -/
def nestedDurLoop {Ctx Target Δ : Type} :
    List (ℚ × Clip Ctx Target Δ) → Option ℚ → Option ℚ
  | [], acc => acc
  | (start_beat, c) :: rest, acc =>
    match c.duration with
    | none => none
    | some d =>
      let end_beat := start_beat + d
      nestedDurLoop rest (some (match acc with
        | none => end_beat
        | some m => if end_beat > m then end_beat else m))

/-- Mirrors the `NestedBPMClip.duration` property (clip.py lines 194-206). -/
def NestedBPMClip.duration {Ctx Target Δ : Type}
    (n : NestedBPMClip Ctx Target Δ) : Option ℚ :=
  match n.inner.events with
  | [] => some 0
  | _ => nestedDurLoop n.inner.events none

/-- Mirrors `NestedBPMClip.render` (clip.py lines 208-209):
`self.inner._render_at(t, ctx)`, treating `t` as beats. -/
def NestedBPMClip.render {Ctx Target Δ : Type} [DecidableEq Target]
    (n : NestedBPMClip Ctx Target Δ) (t : ℚ) (ctx : Ctx) :
    List (Target × Δ) :=
  n.inner.renderAt t ctx

/-- Mirrors `_fade_envelope` (clip.py lines 170-179). -/
def fade_envelope (t : ℚ) (duration : Option ℚ) (fade_in fade_out : ℚ) : ℚ :=
  match duration with
  | none => 1
  | some d =>
    if d ≤ 0 then 1
    else
      let f : ℚ := 1
      let f := if 0 < fade_in ∧ t < fade_in then min f (t / fade_in) else f
      let f := if 0 < fade_out ∧ d - fade_out < t then min f ((d - t) / fade_out) else f
      max 0 (min 1 f)

/-- Effectful clip interface used to model `ScaledClip`'s inner clip: a
Python render call may mutate clip-level state, modelled by explicit state
passing through `σ`. -/
structure EffClip (Ctx Target Δ σ : Type) where
  duration : Option ℚ
  render : ℚ → Ctx → σ → List (Target × Δ) × σ

/-- Mirrors the `ScaledClip` constructor state (clip.py lines 219-225). -/
structure ScaledClip (Ctx Target Δ σ : Type) where
  inner : EffClip Ctx Target Δ σ
  fade_in : ℚ
  fade_out : ℚ
  amount : ℚ
  scale_fn : Option (List (Target × Δ) → ℚ → List (Target × Δ))
  duration_override : Option ℚ

/-- Mirrors the `ScaledClip.duration` property (clip.py lines 227-231):
override when set, else the inner clip's duration. -/
def ScaledClip.duration {Ctx Target Δ σ : Type}
    (sc : ScaledClip Ctx Target Δ σ) : Option ℚ :=
  match sc.duration_override with
  | some d => some d
  | none => sc.inner.duration

/-- Mirrors `ScaledClip.render` (clip.py lines 233-242): the inner render is
invoked first and unconditionally, then the factor decides whether to pass
the value through, drop it, or scale it. -/
def ScaledClip.render {Ctx Target Δ σ : Type}
    (sc : ScaledClip Ctx Target Δ σ) (t : ℚ) (ctx : Ctx) (s : σ) :
    List (Target × Δ) × σ :=
  let rs := sc.inner.render t ctx s
  let factor := sc.amount * fade_envelope t sc.duration sc.fade_in sc.fade_out
  if 1 ≤ factor then rs
  else if factor ≤ 0 then ([], rs.2)
  else
    match sc.scale_fn with
    | some f => (f rs.1 factor, rs.2)
    | none => rs

/-- Instrumented inner clip for stating the render-invocation count: the
state counts how many times `render` has been called, so a wrapper invokes
the inner render exactly once iff it increments the state by one. -/
def countingClip {Ctx Target Δ : Type} (d : Option ℚ)
    (f : ℚ → Ctx → List (Target × Δ)) : EffClip Ctx Target Δ ℕ :=
  ⟨d, fun t2 c2 k => (f t2 c2, k + 1)⟩

/-! ### Deserialization (src/cuelist/serde.py)

The claims about deserialization concern the tree of wrapper objects built
around each event's clip, modelled by the inductive `PyClip` below.  The
document model keeps the JSON fields that the nested-timeline branch of
`deserialize_timeline` reads; template and variable resolution
(serde.py lines 242-261) is orthogonal to the wrapper structure and is
folded into the abstract `create` argument standing for
`registry.create` and its schema lookup.
-/

/-- Object-shape model of the clip values a deserialized timeline stores:
registry-created leaf clips, `MetadataClip`, `ScaledClip` and
`NestedBPMClip` wrappers, and the two timeline classes. -/
inductive PyClip where
  | leaf (duration : Option ℚ)
  | metadata (inner : PyClip) (timeline_name : Option String)
  | scaled (inner : PyClip) (fade_in fade_out amount : ℚ)
      (duration_override : Option ℚ)
  | nestedBPM (inner : PyClip)
  | timelineObj (events : List (ℚ × PyClip))
  | bpmTimelineObj (tempo : TempoMap) (events : List (ℚ × PyClip))

/-- Mirrors the `"timeline"` reference object of an event
(`{"name": ..., "fade_in"?, "fade_out"?, "amount"?}`).  The fade and amount
fields are carried to show that the src deserializer never reads them. -/
structure TimelineRefJson where
  name : Option String
  fade_in : Option ℚ
  fade_out : Option ℚ
  amount : Option ℚ

/-- Mirrors the `"clip"` object of an event, reduced to the `"type"` field
that decides the branch taken. -/
structure ClipSpecJson where
  ctype : Option String

/-- Mirrors one entry of the `"events"` array. -/
structure EventJson where
  position : ℚ
  timeline : Option TimelineRefJson
  clip : Option ClipSpecJson

/-- Mirrors a timeline JSON document: `"type"`, `"tempo"` (base bpm plus
changes) and `"events"`. -/
structure DocJson where
  tlType : String
  tempoBpm : ℚ
  tempoChanges : List (ℚ × ℚ)
  events : List EventJson

/-- Mirrors `deserialize_timeline` (serde.py lines 169-276) on the modelled
document shape.  `create` stands for the registry clip construction
(including its failure paths, all of which skip the event); `load_fn` is the
optional nested-document loader, with `none` results standing for the
`KeyError`/failure paths that skip the event; `fuel` bounds the recursion
depth (Python recurses unboundedly; every acyclic document needs only finite
fuel).  The nested-timeline branch (serde.py lines 211-234) wraps the loaded
child directly in `MetadataClip`; the clip branch wraps the created clip in
`MetadataClip`.  `Timeline.add` insorts while `BPMTimeline.add` appends,
which `addEv` reproduces. -/
def deserialize_timeline (fuel : ℕ) (create : String → Option PyClip)
    (load_fn : Option (String → Option DocJson)) (data : DocJson) : PyClip :=
  match fuel with
  | 0 => PyClip.timelineObj []
  | fuel' + 1 =>
    let isBPM := data.tlType = "BPMTimeline"
    let tm := data.tempoChanges.foldl (fun m c => m.set_tempo c.1 c.2)
      (TempoMap.init data.tempoBpm)
    let addEv := fun (evs : List (ℚ × PyClip)) (e : ℚ × PyClip) =>
      if isBPM then evs ++ [e] else insortRight evs e
    let evs := data.events.foldl (fun acc ev =>
      match ev.timeline with
      | some ref =>
        match ref.name with
        | none => acc
        | some nm =>
          match load_fn with
          | none => acc
          | some load =>
            match load nm with
            | none => acc
            | some sub =>
              addEv acc (ev.position,
                PyClip.metadata (deserialize_timeline fuel' create load_fn sub)
                  (some nm))
      | none =>
        match ev.clip with
        | none => acc
        | some cs =>
          match cs.ctype with
          | none => acc
          | some ct =>
            match create ct with
            | none => acc
            | some c => addEv acc (ev.position, PyClip.metadata c none)) []
    if isBPM then PyClip.bpmTimelineObj tm evs else PyClip.timelineObj evs

/-- Tests whether a deserialized event clip has the shape the specification
requires of nested-timeline events: a `MetadataClip` whose inner clip is a
`ScaledClip`. -/
def eventWrapsScaled : PyClip → Bool
  | PyClip.metadata (PyClip.scaled _ _ _ _ _) _ => true
  | _ => false

/-! ### Runner nudge (spec section 4.6)

Modelled from the spec: `Runner.nudge`, the fields `_time_offset` and
`_target_time_offset`, and the per-frame interpolation of the effective
offset are absent from src/src/cuelist/runner.py — only
tests/test_runner.py (class TestNudge) references them.  The model follows
the specification's words: `nudge` accumulates additively into a target
offset; each frame the effective offset moves a fraction `alpha` of the
remaining distance toward the target (gradual interpolation, with
`0 < alpha < 1` per frame rather than an instantaneous jump); the elapsed
playback time adds the effective offset to the raw show time and clamps at
zero. -/
structure NudgeState where
  time_offset : ℚ
  target_time_offset : ℚ

/-- Modelled from the spec: `nudge(deltaSeconds)` adds the delta to the
accumulated target offset and leaves the effective offset untouched. -/
def nudge (s : NudgeState) (delta : ℚ) : NudgeState :=
  ⟨s.time_offset, s.target_time_offset + delta⟩

/-- Modelled from the spec: one frame of offset interpolation, moving the
effective offset a fraction `alpha` of the remaining distance toward the
target. -/
def stepOffset (alpha : ℚ) (s : NudgeState) : NudgeState :=
  ⟨s.time_offset + alpha * (s.target_time_offset - s.time_offset),
    s.target_time_offset⟩

/-- Modelled from the spec: the elapsed playback time under a nudge offset,
clamped so it never goes below zero. -/
def elapsedWith (s : NudgeState) (show_time : ℚ) : ℚ :=
  max 0 (show_time + s.time_offset)

/-! ### Helper lemmas -/

theorem addDelta_nonempty {Target Δ : Type} [DecidableEq Target] :
    ∀ (acc : List (Target × List Δ)) (k : Target) (v : Δ),
      (∀ q ∈ acc, q.2 ≠ []) → ∀ q ∈ addDelta acc k v, q.2 ≠ []
  | [], k, v, _ => by
    intro q hq
    simp only [addDelta, List.mem_singleton] at hq
    subst hq
    simp
  | (k', vs) :: rest, k, v, h => by
    intro q hq
    simp only [addDelta] at hq
    by_cases hk : k = k'
    · rw [if_pos hk] at hq
      rcases List.mem_cons.mp hq with h1 | h2
      · subst h1; simp
      · exact h q (List.mem_cons_of_mem _ h2)
    · rw [if_neg hk] at hq
      rcases List.mem_cons.mp hq with h1 | h2
      · subst h1; exact h (k', vs) (List.mem_cons_self _ _)
      · exact addDelta_nonempty rest k v
          (fun q2 hq2 => h q2 (List.mem_cons_of_mem _ hq2)) q h2

theorem foldl_addDelta_nonempty {Target Δ : Type} [DecidableEq Target] :
    ∀ (r : List (Target × Δ)) (acc : List (Target × List Δ)),
      (∀ q ∈ acc, q.2 ≠ []) →
      ∀ q ∈ r.foldl (fun a kv => addDelta a kv.1 kv.2) acc, q.2 ≠ []
  | [], _, h => h
  | kv :: rest, acc, h =>
    foldl_addDelta_nonempty rest (addDelta acc kv.1 kv.2)
      (addDelta_nonempty acc kv.1 kv.2 h)

theorem foldl_groups_nonempty {Target Δ : Type} [DecidableEq Target] :
    ∀ (rs : List (List (Target × Δ))) (acc : List (Target × List Δ)),
      (∀ q ∈ acc, q.2 ≠ []) →
      ∀ q ∈ rs.foldl
        (fun acc2 r => r.foldl (fun a kv => addDelta a kv.1 kv.2) acc2) acc,
      q.2 ≠ []
  | [], _, h => h
  | r :: rest, acc, h => by
    simp only [List.foldl_cons]
    exact foldl_groups_nonempty rest
      (r.foldl (fun a kv => addDelta a kv.1 kv.2) acc)
      (foldl_addDelta_nonempty r acc h)

/-! ### Claim theorems -/

/-- C1: a BPMTimeline at 120 BPM with one clip at beat 0 of duration 4 beats
rendering the identity delta yields 4.0 at `render(2.0)` (the seconds
argument is beat-converted), while the same timeline wrapped in
`NestedBPMClip` yields 2.0 at `render(2.0)` because the wrapper bypasses the
beat conversion and treats 2.0 as beats. -/
theorem c1_nestedBPMClip_unit_correction :
    (BPMTimeline.render
      (⟨compose_last, [((0:ℚ), ⟨some 4, fun t _ => [("ch", t)]⟩)],
        TempoMap.init 120⟩ : BPMTimeline ℚ (Clip Unit String ℚ))
      2 () = [("ch", (4:ℚ))])
  ∧ (NestedBPMClip.render
      (⟨⟨compose_last, [((0:ℚ), ⟨some 4, fun t _ => [("ch", t)]⟩)],
        TempoMap.init 120⟩⟩ : NestedBPMClip Unit String ℚ)
      2 () = [("ch", (2:ℚ))]) := by
  constructor
  · norm_num [BPMTimeline.render, TempoMap.beat, TempoMap.init, beatFrom,
      composeResults, groupDeltas, addDelta, compose_last,
      List.filterMap_cons, List.isEmpty]
  · norm_num [NestedBPMClip.render, BPMTimeline.renderAt,
      composeResults, groupDeltas, addDelta, compose_last,
      List.filterMap_cons, List.isEmpty]

/-- C3: evaluating the deserializer of src at a BPMTimeline document holding
one nested-timeline event (the failing input of the claim) shows that the
loaded child is wrapped directly in `MetadataClip` with no `ScaledClip` and
no `NestedBPMClip` anywhere — the duration-clamping and unit-correction
wrappers the specification (and tests/test_scaled_clip.py) require are never
built by serde.py lines 211-234. -/
theorem c3_deserialize_nested_wrapping :
    (deserialize_timeline 2
      (fun ct => if ct = "test_clip" then some (PyClip.leaf (some 4)) else none)
      (some (fun nm =>
        if nm = "sub" then
          some ⟨"BPMTimeline", 120, [], [⟨0, none, some ⟨some "test_clip"⟩⟩]⟩
        else none))
      ⟨"BPMTimeline", 120, [], [⟨0, some ⟨some "sub", none, none, none⟩, none⟩]⟩
     = PyClip.bpmTimelineObj (TempoMap.init 120)
        [(0, PyClip.metadata
            (PyClip.bpmTimelineObj (TempoMap.init 120)
              [(0, PyClip.metadata (PyClip.leaf (some 4)) none)])
            (some "sub"))])
  ∧ eventWrapsScaled
      (PyClip.metadata
        (PyClip.bpmTimelineObj (TempoMap.init 120)
          [(0, PyClip.metadata (PyClip.leaf (some 4)) none)])
        (some "sub")) = false :=
  ⟨rfl, rfl⟩

/-- C2: `nudge` accumulates additively into the target offset without
touching the effective offset; the elapsed playback time is clamped at zero;
and each interpolation frame moves the effective offset strictly closer to
the target without reaching it in one step (gradual, not an instantaneous
jump), for any per-frame fraction strictly between 0 and 1. -/
theorem c2_runner_nudge (s : NudgeState) (d1 d2 show_time alpha : ℚ)
    (h0 : 0 < alpha) (h1 : alpha < 1) :
    ((nudge (nudge s d1) d2).target_time_offset
        = s.target_time_offset + d1 + d2)
  ∧ ((nudge s d1).time_offset = s.time_offset)
  ∧ (0 ≤ elapsedWith s show_time)
  ∧ (s.time_offset ≠ s.target_time_offset →
      |(stepOffset alpha s).target_time_offset
          - (stepOffset alpha s).time_offset|
        < |s.target_time_offset - s.time_offset|
      ∧ (stepOffset alpha s).time_offset ≠ s.target_time_offset) := by
  refine ⟨rfl, rfl, le_max_left _ _, fun hne => ⟨?_, ?_⟩⟩
  · have hd : s.target_time_offset - s.time_offset ≠ 0 := sub_ne_zero.mpr (Ne.symm hne)
    have hrw : (stepOffset alpha s).target_time_offset
        - (stepOffset alpha s).time_offset
        = (1 - alpha) * (s.target_time_offset - s.time_offset) := by
      simp [stepOffset]; ring
    rw [hrw, abs_mul, abs_of_nonneg (by linarith : (0:ℚ) ≤ 1 - alpha)]
    have habs : 0 < |s.target_time_offset - s.time_offset| := abs_pos.mpr hd
    nlinarith
  · have hd : s.target_time_offset - s.time_offset ≠ 0 := sub_ne_zero.mpr (Ne.symm hne)
    intro heq
    have : (1 - alpha) * (s.target_time_offset - s.time_offset) = 0 := by
      simp only [stepOffset] at heq
      nlinarith [heq]
    rcases mul_eq_zero.mp this with h | h
    · linarith
    · exact hd h

/-- Witness for C2 at a concrete state and interpolation fraction. -/
theorem c2_runner_nudge_witness :
    ((nudge (nudge (⟨0, 1⟩ : NudgeState) (1/2)) (1/4)).target_time_offset
        = 1 + 1/2 + 1/4)
  ∧ (0 ≤ elapsedWith (⟨0, 1⟩ : NudgeState) (-5))
  ∧ |(stepOffset (1/2) (⟨0, 1⟩ : NudgeState)).target_time_offset
        - (stepOffset (1/2) (⟨0, 1⟩ : NudgeState)).time_offset|
      < |(1:ℚ) - 0| := by
  have h := c2_runner_nudge ⟨0, 1⟩ (1/2) (1/4) (-5) (1/2)
    (by norm_num) (by norm_num)
  exact ⟨h.1, h.2.2.1, (h.2.2.2 (by norm_num)).1⟩

/-- C10: the composition pipeline only ever creates a per-target delta group
when at least one delta is appended to it, so every list handed to a compose
function by `composeResults` is non-empty, for any render's result list. -/
theorem c10_compose_nonempty {Target Δ : Type} [DecidableEq Target]
    (results : List (List (Target × Δ))) (p : Target × List Δ)
    (hp : p ∈ groupDeltas results) : p.2 ≠ [] :=
  foldl_groups_nonempty results [] (by simp) p hp

/-- Witness for C10 on a concrete pair of result dicts sharing a target. -/
theorem c10_compose_nonempty_witness :
    (("ch", [(1:ℚ), 2]) : String × List ℚ).2 ≠ [] :=
  c10_compose_nonempty [[("ch", 1)], [("ch", 2)]] ("ch", [1, 2])
    (by norm_num [groupDeltas, addDelta])

/-- C6: `ScaledClip.render` always invokes the inner render exactly once
(the counting state increments by one on every path); with
`factor = amount * fadeEnvelope(t, duration, fadeIn, fadeOut)`, a factor at
least 1 returns the inner result unchanged, a factor at most 0 returns the
empty map discarding the inner value, and a factor strictly between 0 and 1
applies `scale_fn` when set and passes the inner result through otherwise;
`fade_envelope` returns 1 whenever the duration is none or nonpositive. -/
theorem c6_scaledClip_render {Ctx Target Δ : Type}
    (sc : ScaledClip Ctx Target Δ ℕ) (d : Option ℚ)
    (f : ℚ → Ctx → List (Target × Δ))
    (hin : sc.inner = countingClip d f) (t : ℚ) (ctx : Ctx) (n : ℕ) :
    ((sc.render t ctx n).2 = n + 1)
  ∧ (1 ≤ sc.amount * fade_envelope t sc.duration sc.fade_in sc.fade_out →
      (sc.render t ctx n).1 = f t ctx)
  ∧ (sc.amount * fade_envelope t sc.duration sc.fade_in sc.fade_out ≤ 0 →
      (sc.render t ctx n).1 = [])
  ∧ (0 < sc.amount * fade_envelope t sc.duration sc.fade_in sc.fade_out →
      sc.amount * fade_envelope t sc.duration sc.fade_in sc.fade_out < 1 →
      (sc.render t ctx n).1 =
        match sc.scale_fn with
        | some g => g (f t ctx)
            (sc.amount * fade_envelope t sc.duration sc.fade_in sc.fade_out)
        | none => f t ctx)
  ∧ (∀ t2 fi2 fo2, fade_envelope t2 none fi2 fo2 = 1)
  ∧ (∀ t2 d2 fi2 fo2, d2 ≤ 0 → fade_envelope t2 (some d2) fi2 fo2 = 1) := by
  obtain ⟨inner, fi, fo, amt, sfn, dov⟩ := sc
  simp only at hin
  subst hin
  dsimp only
  refine ⟨?_, ?_, ?_, ?_, ?_, ?_⟩
  · simp only [ScaledClip.render, countingClip]
    split_ifs <;> try rfl
    cases sfn <;> rfl
  · intro h1
    simp only [ScaledClip.render]
    rw [if_pos h1]
    rfl
  · intro h2
    simp only [ScaledClip.render]
    rw [if_neg (not_le.mpr (lt_of_le_of_lt h2 zero_lt_one)), if_pos h2]
  · intro h3 h4
    simp only [ScaledClip.render]
    rw [if_neg (not_le.mpr h4), if_neg (not_le.mpr h3)]
    cases sfn <;> rfl
  · intro t2 fi2 fo2; rfl
  · intro t2 d2 fi2 fo2 hd
    simp only [fade_envelope]
    rw [if_pos hd]

/-- Witness for C6 at a mid-fade point of a concrete scaled clip. -/
theorem c6_scaledClip_render_witness :
    ((ScaledClip.render
      (⟨countingClip (some 4) (fun t2 _ => [("ch", t2)]), 2, 0, 1,
        some (fun r k => r.map (fun p => (p.1, p.2 * k))), none⟩ :
        ScaledClip Unit String ℚ ℕ) 1 () 0).1 = [("ch", (1:ℚ)/2)])
  ∧ ((ScaledClip.render
      (⟨countingClip (some 4) (fun t2 _ => [("ch", t2)]), 2, 0, 1,
        some (fun r k => r.map (fun p => (p.1, p.2 * k))), none⟩ :
        ScaledClip Unit String ℚ ℕ) 1 () 0).2 = 1) := by
  have h := c6_scaledClip_render
    (⟨countingClip (some 4) (fun t2 _ => [("ch", t2)]), 2, 0, 1,
      some (fun r k => r.map (fun p => (p.1, p.2 * k))), none⟩ :
      ScaledClip Unit String ℚ ℕ)
    (some 4) (fun t2 _ => [("ch", t2)]) rfl 1 () 0
  refine ⟨?_, h.1⟩
  rw [h.2.2.2.1
    (by norm_num [ScaledClip.duration, fade_envelope, countingClip])
    (by norm_num [ScaledClip.duration, fade_envelope, countingClip])]
  norm_num [ScaledClip.duration, fade_envelope, countingClip]

theorem durLoop_of_none {Ctx Target Δ : Type} :
    ∀ (l : List (ℚ × Clip Ctx Target Δ)) (acc : Option ℚ),
      (∃ e ∈ l, e.2.duration = none) → durLoop l acc = none
  | [], _, h => by simp at h
  | (s, c) :: rest, acc, h => by
    rcases h with ⟨e, he, hd⟩
    rcases List.mem_cons.mp he with h1 | h2
    · subst h1
      have hd2 : c.duration = none := hd
      simp only [durLoop, hd2]
    · cases hc : c.duration with
      | none => simp only [durLoop, hc]
      | some d =>
        simp only [durLoop, hc]
        exact durLoop_of_none rest _ ⟨e, h2, hd⟩

theorem durLoop_of_some {Ctx Target Δ : Type} :
    ∀ (l : List (ℚ × Clip Ctx Target Δ)) (a : ℚ),
      (∀ e ∈ l, e.2.duration ≠ none) →
      ∃ m, durLoop l (some a) = some m ∧ a ≤ m ∧
        (∀ x ∈ l.map (fun e => e.1 + e.2.duration.getD 0), x ≤ m) ∧
        (m = a ∨ m ∈ l.map (fun e => e.1 + e.2.duration.getD 0))
  | [], a, _ => ⟨a, rfl, le_refl a, by simp, Or.inl rfl⟩
  | (s, c) :: rest, a, h => by
    cases hc : c.duration with
    | none => exact absurd hc (h (s, c) (List.mem_cons_self _ _))
    | some d =>
      have hrest : ∀ e ∈ rest, e.2.duration ≠ none :=
        fun e he => h e (List.mem_cons_of_mem _ he)
      set a2 : ℚ := if s + d > a then s + d else a with ha2
      have haa2 : a ≤ a2 := by
        rw [ha2]; split_ifs with hgt
        · exact le_of_lt hgt
        · exact le_refl a
      have hsd : s + d ≤ a2 := by
        rw [ha2]; split_ifs with hgt
        · exact le_refl _
        · exact not_lt.mp hgt
      obtain ⟨m, hm, ham, hbound, hmem⟩ := durLoop_of_some rest a2 hrest
      refine ⟨m, ?_, le_trans haa2 ham, ?_, ?_⟩
      · simp only [durLoop, hc]
        exact hm
      · intro x hx
        simp only [List.map_cons, List.mem_cons] at hx
        rcases hx with h1 | h2
        · rw [h1, hc]
          exact le_trans (le_of_eq (by simp)) (le_trans hsd ham)
        · exact hbound x h2
      · rcases hmem with h1 | h2
        · rw [ha2] at h1
          by_cases hgt : s + d > a
        

          · rw [if_pos hgt] at h1
            refine Or.inr ?_
            simp only [List.map_cons, List.mem_cons, hc]
            exact Or.inl (by simpa using h1)
          · rw [if_neg hgt] at h1
            exact Or.inl h1
        · exact Or.inr (by simp only [List.map_cons, List.mem_cons]; exact Or.inr h2)

theorem listRemove_of_not_mem {α : Type} [DecidableEq α] :
    ∀ (l : List α) (y : α), y ∉ l → listRemove l y = none
  | [], _, _ => rfl
  | x :: rest, y, h => by
    have hxy : ¬ x = y := fun he => h (he ▸ List.mem_cons_self _ _)
    simp only [listRemove, if_neg hxy,
      listRemove_of_not_mem rest y (fun hm => h (List.mem_cons_of_mem _ hm))]
    rfl

theorem listRemove_of_mem {α : Type} [DecidableEq α] :
    ∀ (l : List α) (y : α), y ∈ l →
      ∃ l1 l2, l = l1 ++ y :: l2 ∧ y ∉ l1 ∧ listRemove l y = some (l1 ++ l2)
  | [], y, h => absurd h (List.not_mem_nil y)
  | x :: rest, y, h => by
    by_cases hxy : x = y
    · subst hxy
      exact ⟨[], rest, rfl, List.not_mem_nil x, by simp [listRemove]⟩
    · have hmem : y ∈ rest := by
        rcases List.mem_cons.mp h with h1 | h2
        · exact absurd h1.symm hxy
        · exact h2
      obtain ⟨l1, l2, heq, hnm, hrm⟩ := listRemove_of_mem rest y hmem
      refine ⟨x :: l1, l2, by rw [heq]; rfl, ?_, ?_⟩
      · intro hc
        rcases List.mem_cons.mp hc with h1 | h2
        · exact hxy h1.symm
        · exact hnm h2
      · simp only [listRemove, if_neg hxy, hrm, Option.map_some]
        rfl

/-- C7: a Timeline's duration is 0 for an empty event list, null as soon as
any event's clip has null duration, and otherwise the maximum of
position + duration over all events (which may be negative, as the witness
shows). -/
theorem c7_timeline_duration {Ctx Target Δ : Type}
    (tl : Timeline Δ (Clip Ctx Target Δ)) :
    (tl.events = [] → tl.duration = some 0)
  ∧ ((∃ e ∈ tl.events, e.2.duration = none) → tl.duration = none)
  ∧ ((∀ e ∈ tl.events, e.2.duration ≠ none) → tl.events ≠ [] →
      ∃ m, tl.duration = some m ∧
        m ∈ tl.events.map (fun e => e.1 + e.2.duration.getD 0) ∧
        ∀ x ∈ tl.events.map (fun e => e.1 + e.2.duration.getD 0), x ≤ m) := by
  obtain ⟨cf, evs⟩ := tl
  refine ⟨?_, ?_, ?_⟩
  · intro h
    dsimp only at h
    subst h
    rfl
  · intro h
    dsimp only at h
    cases evs with
    | nil => simp at h
    | cons e rest =>
      show durLoop (e :: rest) none = none
      exact durLoop_of_none (e :: rest) none h
  · intro hall hne
    dsimp only at hall
    cases evs with
    | nil => exact absurd rfl hne
    | cons e rest =>
      obtain ⟨s, c⟩ := e
      cases hc : c.duration with
      | none => exact absurd hc (hall (s, c) (List.mem_cons_self _ _))
      | some d =>
        obtain ⟨m, hm, ham, hbound, hmem⟩ := durLoop_of_some rest (s + d)
          (fun e he => hall e (List.mem_cons_of_mem _ he))
        refine ⟨m, ?_, ?_, ?_⟩
        · show durLoop ((s, c) :: rest) none = some m
          simp only [durLoop, hc]
          exact hm
        · show m ∈ ((s, c) :: rest).map (fun e => e.1 + e.2.duration.getD 0)
          simp only [List.map_cons, List.mem_cons, hc]
          rcases hmem with h1 | h2
          · exact Or.inl (by simpa using h1)
          · exact Or.inr h2
        · intro x hx
          simp only [List.map_cons, List.mem_cons, hc] at hx
          rcases hx with h1 | h2
          · rw [h1]
            exact le_trans (le_of_eq (by simp)) (le_trans (le_refl _) ham)
          · exact hbound x h2

/-- Witness for C7: an empty timeline, a null-duration propagation instance,
and a single event ending before zero giving the negative duration -1. -/
theorem c7_timeline_duration_witness :
    ((⟨compose_last, []⟩ : Timeline ℚ (Clip Unit String ℚ)).duration = some 0)
  ∧ ((⟨compose_last, [(1, ⟨none, fun _ _ => []⟩)]⟩ :
      Timeline ℚ (Clip Unit String ℚ)).duration = none)
  ∧ (∃ m, (⟨compose_last, [(-3, ⟨some 2, fun _ _ => []⟩)]⟩ :
      Timeline ℚ (Clip Unit String ℚ)).duration = some m ∧
      m ∈ [(-3 : ℚ) + (some (2:ℚ)).getD 0] ∧
      ∀ x ∈ [(-3 : ℚ) + (some (2:ℚ)).getD 0], x ≤ m) := by
  refine ⟨?_, ?_, ?_⟩
  · exact (c7_timeline_duration _).1 rfl
  · exact (c7_timeline_duration
      (⟨compose_last, [(1, ⟨none, fun _ _ => []⟩)]⟩ :
        Timeline ℚ (Clip Unit String ℚ))).2.1
      ⟨(1, ⟨none, fun _ _ => []⟩), by simp, rfl⟩
  · exact (c7_timeline_duration
      (⟨compose_last, [(-3, ⟨some 2, fun _ _ => []⟩)]⟩ :
        Timeline ℚ (Clip Unit String ℚ))).2.2
      (by rintro e he; simp at he; rw [he]; simp) (by simp)

/-- C8: `remove(position, clip)` on a Timeline or a BPMTimeline deletes
exactly the first event equal to the pair, and when no event matches it
raises (flag `true`) leaving the event list unchanged. -/
theorem c8_remove_semantics {Δ γ : Type} [DecidableEq γ]
    (tl : Timeline Δ γ) (btl : BPMTimeline Δ γ) (p : ℚ) (c : γ) :
    ((p, c) ∉ tl.events → tl.removeMut p c = (tl, true))
  ∧ ((p, c) ∈ tl.events → ∃ l1 l2, tl.events = l1 ++ (p, c) :: l2 ∧
      (p, c) ∉ l1 ∧ tl.removeMut p c = (⟨tl.compose_fn, l1 ++ l2⟩, false))
  ∧ ((p, c) ∉ btl.events → btl.removeMut p c = (btl, true))
  ∧ ((p, c) ∈ btl.events → ∃ l1 l2, btl.events = l1 ++ (p, c) :: l2 ∧
      (p, c) ∉ l1 ∧ btl.removeMut p c =
        (⟨btl.compose_fn, l1 ++ l2, btl.tempo_map⟩, false)) := by
  refine ⟨?_, ?_, ?_, ?_⟩
  · intro h
    simp only [Timeline.removeMut, listRemove_of_not_mem tl.events (p, c) h]
  · intro h
    obtain ⟨l1, l2, heq, hnm, hrm⟩ := listRemove_of_mem tl.events (p, c) h
    exact ⟨l1, l2, heq, hnm, by simp only [Timeline.removeMut, hrm]⟩
  · intro h
    simp only [BPMTimeline.removeMut, listRemove_of_not_mem btl.events (p, c) h]
  · intro h
    obtain ⟨l1, l2, heq, hnm, hrm⟩ := listRemove_of_mem btl.events (p, c) h
    exact ⟨l1, l2, heq, hnm, by simp only [BPMTimeline.removeMut, hrm]⟩

/-- Witness for C8 on concrete two-event timelines: removing an absent event
raises and leaves the state unchanged, removing a present event excises
exactly its first occurrence. -/
theorem c8_remove_semantics_witness :
    ((⟨compose_last, [((1:ℚ), (5:ℕ)), (2, 7)]⟩ : Timeline ℚ ℕ).removeMut 3 9
      = (⟨compose_last, [(1, 5), (2, 7)]⟩, true))
  ∧ (∃ l1 l2, [((1:ℚ), (5:ℕ)), (2, 7)] = l1 ++ (2, 7) :: l2 ∧
      (2, 7) ∉ l1 ∧
      (⟨compose_last, [((1:ℚ), (5:ℕ)), (2, 7)]⟩ : Timeline ℚ ℕ).removeMut 2 7
        = (⟨compose_last, l1 ++ l2⟩, false)) := by
  constructor
  · exact (c8_remove_semantics (⟨compose_last, [((1:ℚ), (5:ℕ)), (2, 7)]⟩ :
      Timeline ℚ ℕ) (⟨compose_last, [], TempoMap.init 120⟩ : BPMTimeline ℚ ℕ)
      3 9).1 (by norm_num)
  · exact (c8_remove_semantics (⟨compose_last, [((1:ℚ), (5:ℕ)), (2, 7)]⟩ :
      Timeline ℚ ℕ) (⟨compose_last, [], TempoMap.init 120⟩ : BPMTimeline ℚ ℕ)
      2 7).2.1 (by norm_num)

theorem mem_insortRight {γ : Type} :
    ∀ (l : List (ℚ × γ)) (x y : ℚ × γ),
      y ∈ insortRight l x ↔ y = x ∨ y ∈ l
  | [], x, y => by simp [insortRight]
  | e :: rest, x, y => by
    simp only [insortRight]
    split_ifs with hlt
    · simp only [List.mem_cons]
    · simp only [List.mem_cons, mem_insortRight rest x y]
      tauto

theorem insortRight_pairwise {γ : Type} :
    ∀ (l : List (ℚ × γ)) (x : ℚ × γ),
      l.Pairwise (fun a b => a.1 ≤ b.1) →
      (insortRight l x).Pairwise (fun a b => a.1 ≤ b.1)
  | [], x, _ =>
    List.Pairwise.cons (fun y hy => absurd hy (List.not_mem_nil y))
      List.Pairwise.nil
  | e :: rest, x, h => by
    rcases List.pairwise_cons.mp h with ⟨hhead, htail⟩
    simp only [insortRight]
    split_ifs with hlt
    · refine List.pairwise_cons.mpr ⟨?_, h⟩
      intro y hy
      rcases List.mem_cons.mp hy with h1 | h2
      · exact le_of_lt (h1 ▸ hlt)
      · exact le_trans (le_of_lt hlt) (hhead y h2)
    · refine List.pairwise_cons.mpr ⟨?_, insortRight_pairwise rest x htail⟩
      intro y hy
      rcases (mem_insortRight rest x y).mp hy with h1 | h2
      · exact h1 ▸ not_lt.mp hlt
      · exact hhead y h2

theorem listRemove_sublist {α : Type} [DecidableEq α] :
    ∀ (l : List α) (y : α) (l2 : List α),
      listRemove l y = some l2 → l2.Sublist l
  | [], y, l2, h => by simp [listRemove] at h
  | x :: rest, y, l2, h => by
    by_cases hxy : x = y
    · simp only [listRemove, if_pos hxy, Option.some.injEq] at h
      subst h
      exact List.sublist_cons_self x rest
    · simp only [listRemove, if_neg hxy] at h
      cases hr : listRemove rest y with
      | none => rw [hr] at h; simp at h
      | some l3 =>
        rw [hr] at h
        have h2 : x :: l3 = l2 := by simpa using h
        subst h2
        exact List.Sublist.cons₂ x (listRemove_sublist rest y l3 hr)

theorem take_bisect_eq_filter {γ : Type} :
    ∀ (l : List (ℚ × γ)) (t : ℚ),
      l.Pairwise (fun a b => a.1 ≤ b.1) →
      l.take (bisectRight l t) = l.filter (fun e => decide (e.1 ≤ t))
  | [], _, _ => rfl
  | e :: rest, t, h => by
    rcases List.pairwise_cons.mp h with ⟨hhead, htail⟩
    simp only [bisectRight]
    split_ifs with hlt
    · simp only [List.take_zero, List.filter_cons,
        decide_eq_true_eq]
      rw [if_neg (by exact not_le.mpr hlt)]
      symm
      rw [List.filter_eq_nil_iff]
      intro a ha
      simp only [decide_eq_true_eq]
      exact fun hc => absurd (le_trans (hhead a ha) hc) (not_le.mpr hlt)
    · rw [Nat.add_comm 1 (bisectRight rest t)]
      simp only [List.take_succ_cons, List.filter_cons, decide_eq_true_eq]
      rw [if_pos (not_lt.mp hlt)]
      rw [take_bisect_eq_filter rest t htail]

/-- C9: every Timeline state reachable through add/remove/clear from an
empty timeline keeps its event list sorted by position (add inserts via
sorted insertion, remove and clear preserve sortedness), so the bisect-based
prefix that `_render_at` scans is exactly the set of events with position at
most the query time; a BPMTimeline's add, by contrast, appends in insertion
order. -/
theorem c9_sorted_invariant {Δ γ : Type} [DecidableEq γ]
    (tl : Timeline Δ γ) (h : Timeline.Reachable tl) :
    (tl.events.Pairwise (fun a b => a.1 ≤ b.1)
      ∧ ∀ t, tl.events.take (bisectRight tl.events t)
          = tl.events.filter (fun e => decide (e.1 ≤ t)))
  ∧ ∀ (btl : BPMTimeline Δ γ) (p : ℚ) (c : γ),
      (btl.add p c).events = btl.events ++ [(p, c)] := by
  have hs : tl.events.Pairwise (fun a b => a.1 ≤ b.1) := by
    induction h with
    | init cf => simp
    | add tl2 p c _ ih => exact insortRight_pairwise tl2.events (p, c) ih
    | remove tl2 p c _ ih =>
      cases hrm : listRemove tl2.events (p, c) with
      | none => simpa only [Timeline.removeMut, hrm] using ih
      | some l =>
        simp only [Timeline.removeMut, hrm]
        exact List.Pairwise.sublist
          (listRemove_sublist tl2.events (p, c) l hrm) ih
    | clear tl2 _ _ => simp [Timeline.clear]
  exact ⟨⟨hs, fun t => take_bisect_eq_filter tl.events t hs⟩,
    fun btl p c => rfl⟩

/-- Witness for C9 on a concrete reachable timeline built by two unsorted
adds. -/
theorem c9_sorted_invariant_witness :
    (((⟨compose_last, []⟩ : Timeline ℚ ℕ).add 2 7).add 1 5).events.Pairwise
        (fun a b => a.1 ≤ b.1)
  ∧ ((((⟨compose_last, []⟩ : Timeline ℚ ℕ).add 2 7).add 1 5).events.take
        (bisectRight (((⟨compose_last, []⟩ : Timeline ℚ ℕ).add 2 7).add
          1 5).events 1)
      = (((⟨compose_last, []⟩ : Timeline ℚ ℕ).add 2 7).add
          1 5).events.filter (fun e => decide (e.1 ≤ 1)))
  ∧ ((⟨compose_last, [(4, 9)], TempoMap.init 120⟩ : BPMTimeline ℚ ℕ).add 0
      3).events = [(4, 9)] ++ [(0, 3)] := by
  have h := c9_sorted_invariant
    (((⟨compose_last, []⟩ : Timeline ℚ ℕ).add 2 7).add 1 5)
    (Timeline.Reachable.add _ 1 5
      (Timeline.Reachable.add _ 2 7 (Timeline.Reachable.init compose_last)))
  exact ⟨h.1.1, h.1.2 1,
    h.2 (⟨compose_last, [(4, 9)], TempoMap.init 120⟩ : BPMTimeline ℚ ℕ) 0 3⟩

theorem addDelta_fresh {Target Δ : Type} [DecidableEq Target] :
    ∀ (acc : List (Target × List Δ)) (k : Target) (v : Δ),
      k ∉ acc.map Prod.fst → addDelta acc k v = acc ++ [(k, [v])]
  | [], _, _, _ => rfl
  | (k', vs) :: rest, k, v, h => by
    have hk : ¬ k = k' := by
      intro he
      exact h (by simp [he])
    simp only [addDelta, if_neg hk, List.cons_append, List.cons.injEq,
      true_and]
    exact addDelta_fresh rest k v (fun hm => h (by simp at hm ⊢; tauto))

theorem foldl_addDelta_fresh {Target Δ : Type} [DecidableEq Target] :
    ∀ (r : List (Target × Δ)) (acc : List (Target × List Δ)),
      (r.map Prod.fst).Nodup →
      (∀ kv ∈ r, kv.1 ∉ acc.map Prod.fst) →
      r.foldl (fun a kv => addDelta a kv.1 kv.2) acc
        = acc ++ r.map (fun kv => (kv.1, [kv.2]))
  | [], acc, _, _ => by simp
  | kv :: rest, acc, hnd, hfresh => by
    simp only [List.foldl_cons]
    rw [addDelta_fresh acc kv.1 kv.2 (hfresh kv (List.mem_cons_self _ _))]
    rw [foldl_addDelta_fresh rest (acc ++ [(kv.1, [kv.2])])
      ((List.nodup_cons.mp (by simpa using hnd)).2) ?_]
    · simp
    · intro kv2 hkv2
      simp only [List.map_append, List.mem_append, List.map_cons,
        List.map_nil, List.mem_singleton]
      rintro (hin | heq)
      · exact hfresh kv2 (List.mem_cons_of_mem _ hkv2) hin
      · have : kv.1 ∉ rest.map Prod.fst :=
          (List.nodup_cons.mp (by simpa using hnd)).1
        exact this (heq ▸ List.mem_map_of_mem Prod.fst hkv2)

theorem composeResults_singleton {Target Δ : Type} [DecidableEq Target]
    (cf : List Δ → Δ) (r : List (Target × Δ))
    (hnd : (r.map Prod.fst).Nodup) :
    composeResults cf [r] = r.map (fun kv => (kv.1, cf [kv.2])) := by
  simp only [composeResults, groupDeltas, List.foldl_cons, List.foldl_nil]
  rw [foldl_addDelta_fresh r [] hnd (by simp)]
  simp [List.map_map, Function.comp]

/-- C5: for a Timeline holding one finite clip of duration D at position P
(with a compose function that is the identity on singleton delta lists, as
`compose_last` is), `render(t)` equals the clip's own `render(t-P)` for
`P ≤ t ≤ P+D` and the empty map outside that window; in general, on a
position-sorted event list the active set consists exactly of the events
whose local time `t - position` is nonnegative and within the clip duration
when one is set. -/
theorem c5_activation_window {Ctx Target Δ : Type} [DecidableEq Target]
    (cf : List Δ → Δ) (hcf : ∀ v : Δ, cf [v] = v)
    (P D t : ℚ) (c : Clip Ctx Target Δ) (ctx : Ctx)
    (hdur : c.duration = some D)
    (hkeys : ((c.render (t - P) ctx).map Prod.fst).Nodup) :
    (P ≤ t → t ≤ P + D →
      Timeline.render (⟨cf, [(P, c)]⟩ : Timeline Δ (Clip Ctx Target Δ)) t ctx
        = c.render (t - P) ctx)
  ∧ (t < P →
      Timeline.render (⟨cf, [(P, c)]⟩ : Timeline Δ (Clip Ctx Target Δ)) t ctx
        = [])
  ∧ (P + D < t →
      Timeline.render (⟨cf, [(P, c)]⟩ : Timeline Δ (Clip Ctx Target Δ)) t ctx
        = [])
  ∧ (∀ (tl : Timeline Δ (Clip Ctx Target Δ)),
      tl.events.Pairwise (fun a b => a.1 ≤ b.1) →
      activeEvents tl t = tl.events.filterMap (fun e =>
        if 0 ≤ t - e.1 ∧ (e.2.duration = none ∨ t - e.1 ≤ e.2.duration.getD 0)
        then some (t - e.1, e.2) else none)) := by
  have hgen : ∀ (tl : Timeline Δ (Clip Ctx Target Δ)),
      tl.events.Pairwise (fun a b => a.1 ≤ b.1) →
      activeEvents tl t = tl.events.filterMap (fun e =>
        if 0 ≤ t - e.1 ∧ (e.2.duration = none ∨ t - e.1 ≤ e.2.duration.getD 0)
        then some (t - e.1, e.2) else none) := by
    intro tl hsor
    simp only [activeEvents]
    rw [take_bisect_eq_filter tl.events t hsor]
    rw [List.filterMap_reverse, List.reverse_reverse]
    rw [List.filterMap_filter]
    apply List.filterMap_congr
    intro e _
    by_cases hle : e.1 ≤ t
    · rw [if_pos (by simpa using hle)]
      by_cases hnone : e.2.duration = none
      · rw [if_neg (by simp [hnone]), if_pos ⟨by linarith, Or.inl hnone⟩]
      · by_cases hgt : t - e.1 > e.2.duration.getD 0
        · rw [if_pos ⟨hnone, hgt⟩, if_neg ?_]
          rintro ⟨-, h2 | h2⟩
          · exact hnone h2
          · exact absurd hgt (not_lt.mpr h2)
        · rw [if_neg (fun hc => hgt hc.2),
            if_pos ⟨by linarith, Or.inr (not_lt.mp hgt)⟩]
    · rw [if_neg (by simpa using hle), if_neg ?_]
      rintro ⟨h1, -⟩
      exact hle (by linarith)
  refine ⟨?_, ?_, ?_, hgen⟩
  · intro h1 h2
    have hact : activeEvents
        (⟨cf, [(P, c)]⟩ : Timeline Δ (Clip Ctx Target Δ)) t
        = [(t - P, c)] := by
      rw [hgen _ (by simp)]
      simp only [List.filterMap_cons, List.filterMap_nil]
      rw [if_pos ⟨by linarith, Or.inr (by rw [hdur]; simpa using by linarith)⟩]
    simp only [Timeline.render, Timeline.renderAt, hact]
    rw [if_neg (by simp)]
    simp only [List.map_cons, List.map_nil]
    rw [composeResults_singleton cf _ hkeys]
    have : (fun kv : Target × Δ => (kv.1, cf [kv.2])) = fun kv => kv := by
      funext kv
      rw [hcf]
    rw [this]
    simp
  · intro h1
    have hact : activeEvents
        (⟨cf, [(P, c)]⟩ : Timeline Δ (Clip Ctx Target Δ)) t = [] := by
      rw [hgen _ (by simp)]
      simp only [List.filterMap_cons, List.filterMap_nil]
      rw [if_neg ?_]
      rintro ⟨hge, -⟩
      exact absurd h1 (not_lt.mpr (by linarith))
    simp only [Timeline.render, Timeline.renderAt, hact]
    rfl
  · intro h1
    have hact : activeEvents
        (⟨cf, [(P, c)]⟩ : Timeline Δ (Clip Ctx Target Δ)) t = [] := by
      rw [hgen _ (by simp)]
      simp only [List.filterMap_cons, List.filterMap_nil]
      rw [if_neg ?_]
      rintro ⟨-, h2 | h2⟩
      · rw [hdur] at h2
        exact Option.some_ne_none D h2
      · rw [hdur] at h2
        simp only [Option.getD_some] at h2
        linarith
    simp only [Timeline.render, Timeline.renderAt, hact]
    rfl

/-- Witness for C5 at t inside, before, and after the window of a clip of
duration 2 at position 1. -/
theorem c5_activation_window_witness :
    (Timeline.render
      (⟨compose_last, [(1, ⟨some 2, fun t2 _ => [("ch", t2)]⟩)]⟩ :
        Timeline ℚ (Clip Unit String ℚ)) 2 () = [("ch", (1:ℚ))])
  ∧ (Timeline.render
      (⟨compose_last, [(1, ⟨some 2, fun t2 _ => [("ch", t2)]⟩)]⟩ :
        Timeline ℚ (Clip Unit String ℚ)) 0 () = [])
  ∧ (Timeline.render
      (⟨compose_last, [(1, ⟨some 2, fun t2 _ => [("ch", t2)]⟩)]⟩ :
        Timeline ℚ (Clip Unit String ℚ)) 4 () = []) := by
  refine ⟨?_, ?_, ?_⟩
  · have h := (c5_activation_window compose_last (fun v => rfl) 1 2 2
      ⟨some 2, fun t2 _ => [("ch", t2)]⟩ () rfl (by simp)).1
      (by norm_num) (by norm_num)
    rw [h]
    norm_num
  · exact (c5_activation_window compose_last (fun v => rfl) 1 2 0
      ⟨some 2, fun t2 _ => [("ch", t2)]⟩ () rfl (by simp)).2.1
      (by norm_num)
  · exact (c5_activation_window compose_last (fun v => rfl) 1 2 4
      ⟨some 2, fun t2 _ => [("ch", t2)]⟩ () rfl (by simp)).2.2.1
      (by norm_num)

theorem timeFrom_pos :
    ∀ (rest : List (ℚ × ℚ)) (pb pm beats : ℚ),
      0 < pm → tailWF pb rest → pb < beats → 0 < timeFrom pb pm rest beats
  | [], pb, pm, beats, hpm, _, hlt => by
    simp only [timeFrom]
    exact mul_pos (by linarith) (div_pos (by norm_num) hpm)
  | (cb, cm) :: rest, pb, pm, beats, hpm, hwf, hlt => by
    obtain ⟨hpbcb, hcm, hwf2⟩ := hwf
    simp only [timeFrom]
    split_ifs with hb
    · exact mul_pos (by linarith) (div_pos (by norm_num) hpm)
    · exact add_pos
        (mul_pos (by linarith) (div_pos (by norm_num) hpm))
        (timeFrom_pos rest cb cm beats hcm hwf2 (not_le.mp hb))

theorem beatFrom_gt :
    ∀ (rest : List (ℚ × ℚ)) (cb cm elapsed secs : ℚ),
      0 < cm → tailWF cb rest → elapsed < secs →
      cb < beatFrom cb cm elapsed rest secs
  | [], cb, cm, elapsed, secs, hcm, _, hlt => by
    simp only [beatFrom]
    have : 0 < (secs - elapsed) * (cm / 60) :=
      mul_pos (by linarith) (div_pos hcm (by norm_num))
    linarith
  | (cb2, cm2) :: rest, cb, cm, elapsed, secs, hcm, hwf, hlt => by
    obtain ⟨hcbcb2, hcm2, hwf2⟩ := hwf
    simp only [beatFrom]
    split_ifs with hs
    · have : 0 < (secs - elapsed) * (cm / 60) :=
        mul_pos (by linarith) (div_pos hcm (by norm_num))
      linarith
    · have hrec := beatFrom_gt rest cb2 cm2
        (elapsed + (cb2 - cb) * (60 / cm)) secs hcm2 hwf2 (not_le.mp hs)
      linarith

theorem beat_timeFrom :
    ∀ (rest : List (ℚ × ℚ)) (pb pm elapsed beats : ℚ),
      0 < pm → tailWF pb rest →
      beatFrom pb pm elapsed rest (elapsed + timeFrom pb pm rest beats)
        = beats
  | [], pb, pm, elapsed, beats, hpm, _ => by
    have hpm2 : pm ≠ 0 := ne_of_gt hpm
    simp only [timeFrom, beatFrom]
    field_simp
    ring
  | (cb, cm) :: rest, pb, pm, elapsed, beats, hpm, hwf => by
    obtain ⟨hpbcb, hcm, hwf2⟩ := hwf
    have hpm2 : pm ≠ 0 := ne_of_gt hpm
    by_cases hb : beats ≤ cb
    · have hle : (beats - pb) * (60 / pm) ≤ (cb - pb) * (60 / pm) :=
        mul_le_mul_of_nonneg_right (by linarith)
          (le_of_lt (div_pos (by norm_num) hpm))
      simp only [timeFrom, beatFrom, if_pos hb]
      rw [if_pos (by linarith)]
      field_simp
      ring
    · have hcb : cb < beats := not_le.mp hb
      have hpos : 0 < timeFrom cb cm rest beats :=
        timeFrom_pos rest cb cm beats hcm hwf2 hcb
      simp only [timeFrom, beatFrom, if_neg hb]
      rw [if_neg (by linarith)]
      have harg : elapsed + ((cb - pb) * (60 / pm) + timeFrom cb cm rest beats)
          = (elapsed + (cb - pb) * (60 / pm)) + timeFrom cb cm rest beats := by
        ring
      rw [harg]
      exact beat_timeFrom rest cb cm (elapsed + (cb - pb) * (60 / pm)) beats
        hcm hwf2

theorem time_beatFrom :
    ∀ (rest : List (ℚ × ℚ)) (pb pm elapsed secs : ℚ),
      0 < pm → tailWF pb rest →
      elapsed + timeFrom pb pm rest (beatFrom pb pm elapsed rest secs)
        = secs
  | [], pb, pm, elapsed, secs, hpm, _ => by
    have hpm2 : pm ≠ 0 := ne_of_gt hpm
    simp only [timeFrom, beatFrom]
    field_simp
    ring
  | (cb, cm) :: rest, pb, pm, elapsed, secs, hpm, hwf => by
    obtain ⟨hpbcb, hcm, hwf2⟩ := hwf
    have hpm2 : pm ≠ 0 := ne_of_gt hpm
    by_cases hs : secs ≤ elapsed + (cb - pb) * (60 / pm)
    · have hble : pb + (secs - elapsed) * (pm / 60) ≤ cb := by
        have h1 : (secs - elapsed) * (pm / 60)
            ≤ ((cb - pb) * (60 / pm)) * (pm / 60) :=
          mul_le_mul_of_nonneg_right (by linarith)
            (le_of_lt (div_pos hpm (by norm_num)))
        have h2 : ((cb - pb) * (60 / pm)) * (pm / 60) = cb - pb := by
          field_simp
        linarith
      simp only [beatFrom, timeFrom, if_pos hs]
      rw [if_pos hble]
      field_simp
      ring
    · have hgt : cb < beatFrom cb cm (elapsed + (cb - pb) * (60 / pm)) rest secs :=
        beatFrom_gt rest cb cm (elapsed + (cb - pb) * (60 / pm)) secs hcm hwf2
          (not_le.mp hs)
      simp only [beatFrom, timeFrom, if_neg hs]
      rw [if_neg (not_le.mpr hgt)]
      have hrec := time_beatFrom rest cb cm (elapsed + (cb - pb) * (60 / pm))
        secs hcm hwf2
      linarith

theorem tailWF_gt :
    ∀ (l : List (ℚ × ℚ)) (prev : ℚ), tailWF prev l → ∀ p ∈ l, prev < p.1
  | [], _, _, p, hp => absurd hp (List.not_mem_nil p)
  | (cb, cm) :: rest, prev, hwf, p, hp => by
    obtain ⟨h1, _, hwf2⟩ := hwf
    rcases List.mem_cons.mp hp with he | hm
    · rw [he]; exact h1
    · exact lt_trans h1 (tailWF_gt rest cb hwf2 p hm)

theorem tailWF_pos :
    ∀ (l : List (ℚ × ℚ)) (prev : ℚ), tailWF prev l → ∀ p ∈ l, 0 < p.2
  | [], _, _, p, hp => absurd hp (List.not_mem_nil p)
  | (cb, cm) :: rest, prev, hwf, p, hp => by
    obtain ⟨_, h2, hwf2⟩ := hwf
    rcases List.mem_cons.mp hp with he | hm
    · rw [he]; exact h2
    · exact tailWF_pos rest cb hwf2 p hm

theorem tailWF_nodup :
    ∀ (l : List (ℚ × ℚ)) (prev : ℚ), tailWF prev l →
      (l.map Prod.fst).Nodup
  | [], _, _ => List.nodup_nil
  | (cb, cm) :: rest, prev, hwf => by
    obtain ⟨_, _, hwf2⟩ := hwf
    refine List.nodup_cons.mpr ⟨?_, tailWF_nodup rest cb hwf2⟩
    intro hmem
    obtain ⟨p, hp, hfst⟩ := List.mem_map.mp hmem
    have hgt := tailWF_gt rest cb hwf2 p hp
    rw [hfst] at hgt
    exact lt_irrefl cb hgt

theorem tailWF_of_sorted :
    ∀ (l : List (ℚ × ℚ)) (prev : ℚ),
      l.Sorted (fun a b : ℚ × ℚ => a.1 ≤ b.1) →
      (l.map Prod.fst).Nodup →
      (∀ p ∈ l, 0 < p.2) →
      (∀ p ∈ l, prev < p.1) →
      tailWF prev l
  | [], _, _, _, _, _ => trivial
  | (cb, cm) :: rest, prev, hsort, hnd, hpos, hgt => by
    refine ⟨hgt (cb, cm) (List.mem_cons_self _ _),
      hpos (cb, cm) (List.mem_cons_self _ _), ?_⟩
    rcases List.pairwise_cons.mp hsort with ⟨hhead, htail⟩
    rw [List.map_cons] at hnd
    rcases List.nodup_cons.mp hnd with ⟨hnm, hnd2⟩
    refine tailWF_of_sorted rest cb htail hnd2
      (fun p hp => hpos p (List.mem_cons_of_mem _ hp)) ?_
    intro p hp
    rcases lt_or_eq_of_le (hhead p hp) with h | h
    · exact h
    · have hx := List.mem_map_of_mem Prod.fst hp
      rw [← h] at hx
      exact absurd hx hnm

theorem WF_of_sorted_list :
    ∀ (b : ℚ) (l : List (ℚ × ℚ)),
      l.Sorted (fun a b : ℚ × ℚ => a.1 ≤ b.1) →
      (l.map Prod.fst).Nodup →
      (∀ p ∈ l, 0 < p.2) →
      (∀ p ∈ l, 0 ≤ p.1) →
      (∃ b0, (0, b0) ∈ l) →
      TempoMap.WF ⟨b, l⟩
  | _, [], _, _, _, _, hex => by
    obtain ⟨b0, hmem⟩ := hex
    exact absurd hmem (List.not_mem_nil _)
  | b, (z, bh) :: rest, hsort, hnd, hpos, hnonneg, hex => by
    obtain ⟨b0, hmem⟩ := hex
    rcases List.pairwise_cons.mp hsort with ⟨hhead, htail⟩
    rw [List.map_cons] at hnd
    rcases List.nodup_cons.mp hnd with ⟨hnm, hnd2⟩
    have hz : z = 0 := by
      rcases List.mem_cons.mp hmem with he | hm
      · exact (congrArg Prod.fst he.symm : z = 0)
      · have h1 : z ≤ 0 := by simpa using hhead (0, b0) hm
        have h2 : 0 ≤ z := hnonneg (z, bh) (List.mem_cons_self _ _)
        linarith
    subst hz
    refine ⟨rfl, hpos (0, bh) (List.mem_cons_self _ _), ?_⟩
    refine tailWF_of_sorted rest 0 htail hnd2
      (fun p hp => hpos p (List.mem_cons_of_mem _ hp)) ?_
    intro p hp
    rcases lt_or_eq_of_le (hnonneg p (List.mem_cons_of_mem _ hp)) with h | h
    · exact h
    · have hx := List.mem_map_of_mem Prod.fst hp
      rw [← h] at hx
      exact absurd hx hnm

theorem WF_changes_fst_nodup (tm : TempoMap) (h : tm.WF) :
    (tm.changes.map Prod.fst).Nodup := by
  rcases hch : tm.changes with _ | ⟨⟨z, b0⟩, tail⟩
  · exact List.nodup_nil
  · rw [TempoMap.WF, hch] at h
    obtain ⟨hz, _, hwf⟩ := h
    subst hz
    refine List.nodup_cons.mpr ⟨?_, tailWF_nodup tail 0 hwf⟩
    intro hmem
    obtain ⟨p, hp, hfst⟩ := List.mem_map.mp hmem
    exact absurd (hfst ▸ tailWF_gt tail 0 hwf p hp) (lt_irrefl 0)

theorem WF_changes_pos (tm : TempoMap) (h : tm.WF) :
    ∀ p ∈ tm.changes, 0 < p.2 := by
  rcases hch : tm.changes with _ | ⟨⟨z, b0⟩, tail⟩
  · intro p hp; exact absurd hp (List.not_mem_nil p)
  · rw [TempoMap.WF, hch] at h
    obtain ⟨hz, hb0, hwf⟩ := h
    intro p hp
    rcases List.mem_cons.mp hp with he | hm
    · rw [he]; exact hb0
    · exact tailWF_pos tail 0 hwf p hm

theorem WF_changes_nonneg (tm : TempoMap) (h : tm.WF) :
    ∀ p ∈ tm.changes, 0 ≤ p.1 := by
  rcases hch : tm.changes with _ | ⟨⟨z, b0⟩, tail⟩
  · intro p hp; exact absurd hp (List.not_mem_nil p)
  · rw [TempoMap.WF, hch] at h
    obtain ⟨hz, _, hwf⟩ := h
    subst hz
    intro p hp
    rcases List.mem_cons.mp hp with he | hm
    · rw [he]
    · exact le_of_lt (tailWF_gt tail 0 hwf p hm)

theorem WF_changes_zero_mem (tm : TempoMap) (h : tm.WF) :
    ∃ b0, (0, b0) ∈ tm.changes := by
  rcases hch : tm.changes with _ | ⟨⟨z, b0⟩, tail⟩
  · rw [TempoMap.WF, hch] at h
    exact absurd h not_false
  · rw [TempoMap.WF, hch] at h
    exact ⟨b0, h.1 ▸ List.mem_cons_self _ _⟩

theorem reachable_WF (tm : TempoMap) (h : TempoMap.Reachable tm) :
    tm.WF := by
  induction h with
  | init bpm hpos => exact ⟨rfl, hpos, trivial⟩
  | step tm2 beat bpm hpos _ ih =>
    by_cases hbeat : beat ≤ 0
    · rcases hch : tm2.changes with _ | ⟨⟨z, b0⟩, tail⟩
      · rw [TempoMap.WF, hch] at ih
        exact absurd ih not_false
      · rw [TempoMap.WF, hch] at ih
        obtain ⟨hz, _, hwf⟩ := ih
        show TempoMap.WF (tm2.set_tempo beat bpm)
        rw [TempoMap.set_tempo, if_pos hbeat, hch]
        exact ⟨rfl, hpos, hwf⟩
    · have hbpos : 0 < beat := not_le.mp hbeat
      show TempoMap.WF (tm2.set_tempo beat bpm)
      rw [TempoMap.set_tempo, if_neg hbeat]
      haveI htot : IsTotal (ℚ × ℚ) (fun a b : ℚ × ℚ => a.1 ≤ b.1) :=
        ⟨fun a b => le_total a.1 b.1⟩
      haveI htrans : IsTrans (ℚ × ℚ) (fun a b : ℚ × ℚ => a.1 ≤ b.1) :=
        ⟨fun a b c hab hbc => le_trans hab hbc⟩
      set l0 := (tm2.changes.filter (fun e => e.1 ≠ beat)) ++ [(beat, bpm)]
        with hl0
      have hperm : List.Perm
          (List.insertionSort (fun a b : ℚ × ℚ => a.1 ≤ b.1) l0) l0 :=
        List.perm_insertionSort _ l0
      have hfmem : ∀ p ∈ tm2.changes.filter (fun e => e.1 ≠ beat),
          p ∈ tm2.changes :=
        fun p hp => (List.mem_filter.mp hp).1
      have hfne : ∀ p ∈ tm2.changes.filter (fun e => e.1 ≠ beat),
          p.1 ≠ beat := by
        intro p hp
        have := (List.mem_filter.mp hp).2
        simpa using this
      apply WF_of_sorted_list
      · exact List.sorted_insertionSort _ l0
      · refine (List.Perm.nodup_iff (List.Perm.map Prod.fst hperm)).mpr ?_
        rw [hl0, List.map_append]
        refine List.Nodup.append ?_ (by simp) ?_
        · exact List.Nodup.sublist
            (List.Sublist.map Prod.fst (List.filter_sublist _))
            (WF_changes_fst_nodup tm2 ih)
        · intro x hx hx2
          simp only [List.map_cons, List.map_nil, List.mem_singleton] at hx2
          obtain ⟨p, hp, hfst⟩ := List.mem_map.mp hx
          exact hfne p hp (hfst.trans hx2)
      · intro p hp
        rcases (List.Perm.mem_iff hperm).mp hp with hin
        rw [hl0] at hin
        rcases List.mem_append.mp hin with h1 | h2
        · exact WF_changes_pos tm2 ih p (hfmem p h1)
        · rw [List.mem_singleton.mp h2]
          exact hpos
      · intro p hp
        rcases (List.Perm.mem_iff hperm).mp hp with hin
        rw [hl0] at hin
        rcases List.mem_append.mp hin with h1 | h2
        · exact WF_changes_nonneg tm2 ih p (hfmem p h1)
        · rw [List.mem_singleton.mp h2]
          exact le_of_lt hbpos
      · obtain ⟨b0, hmem⟩ := WF_changes_zero_mem tm2 ih
        refine ⟨b0, (List.Perm.mem_iff hperm).mpr ?_⟩
        rw [hl0]
        refine List.mem_append.mpr (Or.inl ?_)
        refine List.mem_filter.mpr ⟨hmem, ?_⟩
        simpa using ne_of_lt hbpos

/-- C4: for every TempoMap built through `set_tempo`, `beat` and `time` are
exact mutual inverses on all of ℚ (negative inputs included), and for
nonpositive beats `time` extrapolates linearly at the beat-0 tempo; in
particular `time(-1)` at 120 BPM is -0.5. -/
theorem c4_tempoMap_roundtrip (tm : TempoMap) (h : TempoMap.Reachable tm) :
    (∀ x : ℚ, tm.beat (tm.time x) = x)
  ∧ (∀ x : ℚ, tm.time (tm.beat x) = x)
  ∧ (∀ x : ℚ, x ≤ 0 → tm.time x = x * (60 / tm.changes.headI.2))
  ∧ TempoMap.time (TempoMap.init 120) (-1) = -(1/2) := by
  have hwf := reachable_WF tm h
  rcases hch : tm.changes with _ | ⟨⟨z, b0⟩, tail⟩
  · rw [TempoMap.WF, hch] at hwf
    exact absurd hwf not_false
  · rw [TempoMap.WF, hch] at hwf
    obtain ⟨hz, hb0, htail⟩ := hwf
    subst hz
    refine ⟨?_, ?_, ?_, ?_⟩
    · intro x
      simp only [TempoMap.time, TempoMap.beat, hch]
      rw [← zero_add (timeFrom 0 b0 tail x)]
      exact beat_timeFrom tail 0 b0 0 x hb0 htail
    · intro x
      simp only [TempoMap.time, TempoMap.beat, hch]
      have := time_beatFrom tail 0 b0 0 x hb0 htail
      linarith
    · intro x hx
      simp only [TempoMap.time, hch, List.headI]
      rcases tail with _ | ⟨⟨cb, cm⟩, rest⟩
      · simp only [timeFrom]
        ring
      · obtain ⟨hcb, _, _⟩ := htail
        simp only [timeFrom]
        rw [if_pos (by linarith)]
        ring
    · norm_num [TempoMap.time, TempoMap.init, timeFrom]

/-- Witness for C4 on the tempo map 120 BPM with a change to 60 BPM at
beat 4. -/
theorem c4_tempoMap_roundtrip_witness :
    (((TempoMap.init 120).set_tempo 4 60).beat
        (((TempoMap.init 120).set_tempo 4 60).time 5) = 5)
  ∧ (((TempoMap.init 120).set_tempo 4 60).time
        (((TempoMap.init 120).set_tempo 4 60).beat 3) = 3)
  ∧ (((TempoMap.init 120).set_tempo 4 60).time (-2)
      = -2 * (60 / ((TempoMap.init 120).set_tempo 4 60).changes.headI.2)) := by
  have h := c4_tempoMap_roundtrip ((TempoMap.init 120).set_tempo 4 60)
    (TempoMap.Reachable.step _ 4 60 (by norm_num)
      (TempoMap.Reachable.init 120 (by norm_num)))
  exact ⟨h.1 5, h.2.1 3, h.2.2.1 (-2) (by norm_num)⟩
